import Mathlib

/-!
Verification of the `Kairi/Q` chat CLI (provider dispatch, Gemini session
backend, OpenAI completion backend, and the thread store).

The embedding follows the current revision of the repository: `api.go`
(`sendChat`, `isVertexModel`, `getReply`, `sendVertexChat`) and the
config-directory thread store in `types.go` (`getHistoryDir`,
`saveConversation`, `loadConversation`, `listConversations`).

Effects are made explicit:
  * environment variables are a record of the two credential strings
    (Go's `os.Getenv` returns `""` both for unset and empty variables);
  * each remote backend is an oracle record; the network requests actually
    issued are collected in an event trace, so "performs zero network
    calls" is "the trace is empty";
  * Go run-time panics (out-of-range slice index / negative `make`
    capacity) are a distinguished `Outcome.panicked` result;
  * the filesystem is an association list from absolute path strings to
    file contents.
-/

set_option maxHeartbeats 1000000
set_option maxRecDepth 4096
set_option linter.unusedVariables false

namespace QChat

/-- `Message` from `types.go`: a single role/content chat message. -/
structure Message where
  role : String
  content : String
deriving DecidableEq, Repr

/-- `ChatCompletionRequest` from `types.go`: payload of the OpenAI call. -/
structure ChatCompletionRequest where
  model : String
  messages : List Message
deriving DecidableEq, Repr

/-- `ChatCompletionChoice` from `types.go`. -/
structure ChatCompletionChoice where
  index : Nat
  message : Message
  finishReason : String
deriving DecidableEq, Repr

/-- `ChatCompletionResponse` from `types.go`. -/
structure ChatCompletionResponse where
  id : String
  object : String
  created : Int
  model : String
  choices : List ChatCompletionChoice
deriving DecidableEq, Repr

/-- One entry of the Gemini chat history (`genai.Content`): a role plus
text parts.  The code always stores exactly one text part per entry. -/
structure GeminiContent where
  role : String
  parts : List String
deriving DecidableEq, Repr

/-- The data `sendVertexChat` hands to the remote Gemini session call:
the standing system instruction (`gm.SystemInstruction`, if set), the
prior-turn history (`cs.History`) and the text of the new turn
(the argument of `cs.SendMessage`). -/
structure GeminiRequest where
  systemInstruction : Option String
  history : List GeminiContent
  text : String
deriving DecidableEq, Repr

/-- One candidate of a Gemini response (`resp.Candidates[i]`), reduced to
its content parts rendered as text. -/
structure GeminiCandidate where
  parts : List String
deriving DecidableEq, Repr

/-- A Gemini response: its candidate list. -/
structure GeminiResponse where
  candidates : List GeminiCandidate
deriving DecidableEq, Repr

/-- The HTTP answer the OpenAI endpoint returns for one POST: status
code, raw body, and the result of `json.Decode` on that body (modelled
as part of the oracle; `decoded = none` is a malformed body). -/
structure HTTPResponse where
  status : Nat
  body : String
  decoded : Option ChatCompletionResponse

/-- Oracle for the completion-style backend: the outcome of
`client.Do` for a given request (`Except.error` is a transport failure). -/
structure OpenAINet where
  doRequest : ChatCompletionRequest → Except Unit HTTPResponse

/-- Oracle for the session-style backend: whether `genai.NewClient`
succeeds, and the outcome of `cs.SendMessage` for a given request. -/
structure GeminiNet where
  clientOk : Bool
  send : GeminiRequest → Except Unit GeminiResponse

/-- The process environment: the two credential variables.  Go's
`os.Getenv` yields `""` both when a variable is unset and when it is
set to the empty string. -/
structure Env where
  openaiKey : String
  geminiKey : String

/-- A network request actually issued to a remote provider. -/
inductive NetEvent where
  | openaiPost (req : ChatCompletionRequest)
  | geminiSend (req : GeminiRequest)
deriving DecidableEq, Repr

/-- The error values the two backends can return, one constructor per
`return ..., err` site of `api.go`. -/
inductive QError where
  | missingOpenAIKey
  | missingGeminiKey
  | transportError
  | apiError (body : String)
  | decodeError
  | noChoices
  | clientCreateError
  | sendMessageError
  | noCandidates
deriving DecidableEq, Repr

/-- Result of a backend call: a reply, an error, or a run-time panic. -/
inductive Outcome where
  | ok (reply : String)
  | err (e : QError)
  | panicked
deriving DecidableEq, Repr

/-- The spec's `MissingCredential` class of errors. -/
def isMissingCredential : QError → Bool
  | .missingOpenAIKey => true
  | .missingGeminiKey => true
  | _ => false

/-- The spec's `ProviderError` class of errors: non-success HTTP status,
or an empty choices/candidates list from a reachable provider. -/
def isProviderError : QError → Bool
  | .apiError _ => true
  | .noChoices => true
  | .noCandidates => true
  | _ => false

/-- `sendChat` from `api.go`: POST the model id and the full message
list to the fixed OpenAI endpoint and extract the first choice. -/
def sendChat (apiKey : String) (net : OpenAINet) (messages : List Message)
    (model : String) : Outcome × List NetEvent :=
  let req : ChatCompletionRequest := ⟨model, messages⟩
  match net.doRequest req with
  | .error _ => (.err .transportError, [.openaiPost req])
  | .ok resp =>
    if resp.status ≠ 200 then
      (.err (.apiError resp.body), [.openaiPost req])
    else
      match resp.decoded with
      | none => (.err .decodeError, [.openaiPost req])
      | some rb =>
        match rb.choices with
        | [] => (.err .noChoices, [.openaiPost req])
        | c :: _ => (.ok c.message.content, [.openaiPost req])

/-- The literal string-prefix test of the specification: the model
identifier starts with the characters `gemini`. -/
def startsWithGemini (model : String) : Bool :=
  "gemini".data.isPrefixOf model.data

/-- `isVertexModel` from `api.go`: `strings.HasPrefix(model, "gemini")`,
a pure prefix test on the model identifier. -/
def isVertexModel (model : String) : Bool :=
  startsWithGemini model

/-- Role translation of the Gemini history loop in `sendVertexChat`:
`user` maps to `user`, `assistant` to `model`, anything else is skipped
(`continue`). -/
def roleToGemini (role : String) : Option String :=
  if role = "user" then some "user"
  else if role = "assistant" then some "model"
  else none

/-- The `cs.History` built by the loop of `sendVertexChat` over a
message list: translate each role, drop untranslatable messages. -/
def buildHistory (msgs : List Message) : List GeminiContent :=
  msgs.filterMap fun m => (roleToGemini m.role).map fun r => ⟨r, [m.content]⟩

/-- The leading system prompt extracted by `sendVertexChat`:
`messages[0].Content` when the first message has role `system`. -/
def systemPromptOf (messages : List Message) : String :=
  match messages with
  | m :: _ => if m.role = "system" then m.content else ""
  | [] => ""

/-- The message list after `sendVertexChat` strips a leading system
message (`messages = messages[1:]`). -/
def stripSystem (messages : List Message) : List Message :=
  match messages with
  | m :: rest => if m.role = "system" then rest else m :: rest
  | [] => []

/-- `sendVertexChat` from `api.go`: check the credential, create the
client, extract a leading system message into `gm.SystemInstruction`
(only when its content is nonempty), load all but the last remaining
message into the history, and send the last message.  When the remaining
list is empty, `make([]*genai.Content, 0, len(messages)-1)` is called
with capacity `-1` and `messages[len(messages)-1]` is out of range: the
program panics. -/
def sendVertexChat (env : Env) (net : GeminiNet) (messages : List Message)
    (model : String) : Outcome × List NetEvent :=
  if env.geminiKey = "" then (.err .missingGeminiKey, [])
  else if net.clientOk = false then (.err .clientCreateError, [])
  else
    let systemPrompt := systemPromptOf messages
    let msgs := stripSystem messages
    let sysInstr : Option String :=
      if systemPrompt ≠ "" then some systemPrompt else none
    match msgs with
    | [] => (.panicked, [])
    | m :: rest =>
      let req : GeminiRequest :=
        ⟨sysInstr, buildHistory (m :: rest).dropLast,
          ((m :: rest).getLast (List.cons_ne_nil m rest)).content⟩
      match net.send req with
      | .error _ => (.err .sendMessageError, [.geminiSend req])
      | .ok resp =>
        match resp.candidates with
        | [] => (.err .noCandidates, [.geminiSend req])
        | c :: _ =>
          match c.parts with
          | [] => (.err .noCandidates, [.geminiSend req])
          | p :: _ => (.ok p, [.geminiSend req])

/-- `getReply` from `api.go`: Gemini-prefixed models go to the
session-style backend, every other model to the completion-style
backend after the OpenAI credential check. -/
def getReply (env : Env) (onet : OpenAINet) (gnet : GeminiNet)
    (messages : List Message) (model : String) : Outcome × List NetEvent :=
  if isVertexModel model then sendVertexChat env gnet messages model
  else if env.openaiKey = "" then (.err .missingOpenAIKey, [])
  else sendChat env.openaiKey onet messages model

/-- The trace of the session-style backend is empty or one Gemini send. -/
theorem sendVertexChat_trace (env : Env) (net : GeminiNet)
    (messages : List Message) (model : String) :
    (sendVertexChat env net messages model).2 = [] ∨
      ∃ req, (sendVertexChat env net messages model).2 = [.geminiSend req] := by
  unfold sendVertexChat
  split
  · exact Or.inl rfl
  · split
    · exact Or.inl rfl
    · dsimp only
      split
      · exact Or.inl rfl
      · rename_i m rest
        split
        · exact Or.inr ⟨_, rfl⟩
        · split
          · exact Or.inr ⟨_, rfl⟩
          · split
            · exact Or.inr ⟨_, rfl⟩
            · exact Or.inr ⟨_, rfl⟩

/-- The trace of the completion-style backend only contains the one
OpenAI POST. -/
theorem sendChat_trace (apiKey : String) (net : OpenAINet)
    (messages : List Message) (model : String) :
    (sendChat apiKey net messages model).2 = [.openaiPost ⟨model, messages⟩] := by
  unfold sendChat
  dsimp only
  split
  · rfl
  · split
    · rfl
    · split
      · rfl
      · split <;> rfl

/-- C1: `getReply` routes to the session-style (Gemini) backend exactly
when the model identifier starts with `"gemini"`; otherwise it runs the
completion-style (OpenAI) path.  Whichever backend is selected, the
trace never contains a request to the other backend: there is no
fallback. -/
theorem c1_getReply_dispatch (env : Env) (onet : OpenAINet) (gnet : GeminiNet)
    (messages : List Message) (model : String) :
    (isVertexModel model = startsWithGemini model) ∧
    (startsWithGemini model = true →
      getReply env onet gnet messages model =
        sendVertexChat env gnet messages model ∧
      ∀ req, NetEvent.openaiPost req ∉ (getReply env onet gnet messages model).2) ∧
    (startsWithGemini model = false →
      getReply env onet gnet messages model =
        (if env.openaiKey = "" then (.err .missingOpenAIKey, [])
         else sendChat env.openaiKey onet messages model) ∧
      ∀ req, NetEvent.geminiSend req ∉ (getReply env onet gnet messages model).2) := by
  refine ⟨rfl, fun h => ⟨?_, ?_⟩, fun h => ⟨?_, ?_⟩⟩
  · simp [getReply, isVertexModel, h]
  · intro req hmem
    rw [getReply, if_pos (by simpa [isVertexModel] using h)] at hmem
    rcases sendVertexChat_trace env gnet messages model with htr | ⟨r, htr⟩ <;>
      rw [htr] at hmem <;> simp at hmem
  · simp [getReply, isVertexModel, h]
  · intro req hmem
    rw [getReply, if_neg (by simp [isVertexModel, h])] at hmem
    by_cases hk : env.openaiKey = ""
    · rw [if_pos hk] at hmem; simp at hmem
    · rw [if_neg hk] at hmem
      rw [sendChat_trace] at hmem
      simp at hmem

/-- C1 witness: concrete dispatch for a Gemini model and a GPT model. -/
theorem c1_getReply_dispatch_witness :
    (startsWithGemini "gemini-pro" = true ∧
      getReply ⟨"", "k"⟩ ⟨fun _ => .error ()⟩ ⟨true, fun _ => .error ()⟩
          [⟨"user", "hi"⟩] "gemini-pro" =
        sendVertexChat ⟨"", "k"⟩ ⟨true, fun _ => .error ()⟩
          [⟨"user", "hi"⟩] "gemini-pro") ∧
    (startsWithGemini "gpt-4" = false ∧
      getReply ⟨"k", ""⟩ ⟨fun _ => .error ()⟩ ⟨true, fun _ => .error ()⟩
          [⟨"user", "hi"⟩] "gpt-4" =
        (if ("k" : String) = "" then (.err .missingOpenAIKey, [])
         else sendChat "k" ⟨fun _ => .error ()⟩ [⟨"user", "hi"⟩] "gpt-4")) :=
  ⟨⟨by decide,
    ((c1_getReply_dispatch ⟨"", "k"⟩ ⟨fun _ => .error ()⟩
      ⟨true, fun _ => .error ()⟩ [⟨"user", "hi"⟩] "gemini-pro").2.1 (by decide)).1⟩,
   ⟨by decide,
    ((c1_getReply_dispatch ⟨"k", ""⟩ ⟨fun _ => .error ()⟩
      ⟨true, fun _ => .error ()⟩ [⟨"user", "hi"⟩] "gpt-4").2.2 (by decide)).1⟩⟩

/-- C4: if the credential required by the selected backend is unset or
empty, `getReply` fails with the corresponding `MissingCredential` error
and an empty network trace; and the result only ever depends on the
selected backend's credential, never on the other one. -/
theorem c4_missing_credential (env : Env) (onet : OpenAINet) (gnet : GeminiNet)
    (messages : List Message) (model : String) :
    (isVertexModel model = true → env.geminiKey = "" →
      getReply env onet gnet messages model = (.err .missingGeminiKey, []) ∧
      isMissingCredential .missingGeminiKey = true) ∧
    (isVertexModel model = false → env.openaiKey = "" →
      getReply env onet gnet messages model = (.err .missingOpenAIKey, []) ∧
      isMissingCredential .missingOpenAIKey = true) ∧
    (∀ env' : Env, isVertexModel model = true → env.geminiKey = env'.geminiKey →
      getReply env onet gnet messages model = getReply env' onet gnet messages model) ∧
    (∀ env' : Env, isVertexModel model = false → env.openaiKey = env'.openaiKey →
      getReply env onet gnet messages model = getReply env' onet gnet messages model) := by
  refine ⟨fun hm hk => ⟨?_, rfl⟩, fun hm hk => ⟨?_, rfl⟩,
    fun env' hm hk => ?_, fun env' hm hk => ?_⟩
  · simp [getReply, sendVertexChat, hm, hk]
  · simp [getReply, hm, hk]
  · simp only [getReply, hm, if_true, sendVertexChat, hk]
  · simp only [getReply, hm, Bool.false_eq_true, if_false, hk]

/-- C4 witness: with both credentials absent, each backend fails with
its own missing-credential error and no network call. -/
theorem c4_missing_credential_witness :
    (getReply ⟨"sk", ""⟩ ⟨fun _ => .error ()⟩ ⟨true, fun _ => .error ()⟩
        [⟨"user", "hi"⟩] "gemini-2.5-flash" = (.err .missingGeminiKey, []) ∧
      isMissingCredential .missingGeminiKey = true) ∧
    (getReply ⟨"", "gk"⟩ ⟨fun _ => .error ()⟩ ⟨true, fun _ => .error ()⟩
        [⟨"user", "hi"⟩] "gpt-4" = (.err .missingOpenAIKey, []) ∧
      isMissingCredential .missingOpenAIKey = true) :=
  ⟨(c4_missing_credential ⟨"sk", ""⟩ ⟨fun _ => .error ()⟩ ⟨true, fun _ => .error ()⟩
      [⟨"user", "hi"⟩] "gemini-2.5-flash").1 (by decide) rfl,
   (c4_missing_credential ⟨"", "gk"⟩ ⟨fun _ => .error ()⟩ ⟨true, fun _ => .error ()⟩
      [⟨"user", "hi"⟩] "gpt-4").2.1 (by decide) rfl⟩

/-- Any Gemini request actually sent by `sendVertexChat` was built from
the stripped message list: its standing instruction is the extracted
system prompt (when nonempty), its history is the translation of all
stripped messages but the last, and its text is the last message's
content. -/
theorem sendVertexChat_send_req (env : Env) (net : GeminiNet)
    (messages : List Message) (model : String) (req : GeminiRequest)
    (hmem : NetEvent.geminiSend req ∈ (sendVertexChat env net messages model).2) :
    ∃ m rest, stripSystem messages = m :: rest ∧
      req = ⟨(if systemPromptOf messages ≠ "" then some (systemPromptOf messages)
              else none),
             buildHistory (m :: rest).dropLast,
             ((m :: rest).getLast (List.cons_ne_nil m rest)).content⟩ := by
  simp only [sendVertexChat] at hmem
  split at hmem
  · simp at hmem
  · split at hmem
    · simp at hmem
    · split at hmem
      · simp at hmem
      · rename_i m rest heq
        split at hmem <;>
          [skip;
           (split at hmem <;> [skip; (split at hmem <;> [skip; skip])])] <;>
        · simp only [List.mem_singleton, NetEvent.geminiSend.injEq] at hmem
          exact ⟨m, rest, heq, hmem⟩

/-- C2 (as frozen) is false: for a conversation whose first message has
role `system` but empty content, the backend supplies no standing
instruction at all — the request sent carries `systemInstruction = none`
rather than the system message.  (It is still absent from the history
and not sent as a turn.) -/
theorem c2_counterexample :
    (sendVertexChat ⟨"", "gk"⟩ ⟨true, fun _ => .ok ⟨[⟨["ok"]⟩]⟩⟩
        [⟨"system", ""⟩, ⟨"user", "hi"⟩] "gemini-2.5-flash").2 =
      [.geminiSend ⟨none, [], "hi"⟩] := by decide

/-- C2 (amended): for a conversation whose first message has role
`system`, every request the session-style backend actually sends
carries the system content as the standing instruction exactly when
that content is nonempty (an empty system message yields no standing
instruction); the turn history and the submitted turn are built solely
from the remaining messages, so no conversational turn derives from the
system message. -/
theorem c2_system_instruction (env : Env) (gnet : GeminiNet) (model : String)
    (sysContent : String) (rest : List Message) (req : GeminiRequest)
    (hmem : NetEvent.geminiSend req ∈
      (sendVertexChat env gnet (⟨"system", sysContent⟩ :: rest) model).2) :
    req.systemInstruction = (if sysContent = "" then none else some sysContent) ∧
    req.history = buildHistory rest.dropLast ∧
    ∃ h : rest ≠ [], req.text = (rest.getLast h).content := by
  obtain ⟨m, rest', hstrip, hreq⟩ :=
    sendVertexChat_send_req env gnet _ model req hmem
  have hsys : systemPromptOf (⟨"system", sysContent⟩ :: rest) = sysContent := by
    simp [systemPromptOf]
  have hrest : rest = m :: rest' := by
    simpa [stripSystem] using hstrip
  subst hrest
  subst hreq
  refine ⟨?_, rfl, List.cons_ne_nil m rest', rfl⟩
  rw [hsys]
  by_cases h : sysContent = "" <;> simp [h]

/-- C2 witness: with a nonempty system prompt, the request sent carries
it as the standing instruction, an empty history and the user turn. -/
theorem c2_system_instruction_witness :
    GeminiRequest.systemInstruction ⟨some "be brief", [], "hi"⟩ =
      (if ("be brief" : String) = "" then none else some "be brief") ∧
    GeminiRequest.history ⟨some "be brief", [], "hi"⟩ =
      buildHistory (List.dropLast [⟨"user", "hi"⟩]) ∧
    ∃ h : ([⟨"user", "hi"⟩] : List Message) ≠ [],
      GeminiRequest.text ⟨some "be brief", [], "hi"⟩ =
        (([⟨"user", "hi"⟩] : List Message).getLast h).content :=
  c2_system_instruction ⟨"", "gk"⟩ ⟨true, fun _ => .ok ⟨[⟨["ok"]⟩]⟩⟩
    "gemini-2.5-flash" "be brief" [⟨"user", "hi"⟩] ⟨some "be brief", [], "hi"⟩
    (by decide)

/-- C5: every request the session-style backend sends has as history
the translation of all stripped messages except the final one — role
`user` kept as `user`, role `assistant` mapped to `model`, every other
role silently dropped — and as submitted turn the final message's
content.  The second conjunct characterises the translation as a
filter-and-map over roles. -/
theorem c5_history_mapping (env : Env) (gnet : GeminiNet) (model : String)
    (messages : List Message) (req : GeminiRequest)
    (hmem : NetEvent.geminiSend req ∈
      (sendVertexChat env gnet messages model).2) :
    (req.history = buildHistory (stripSystem messages).dropLast ∧
     ∃ h : stripSystem messages ≠ [],
       req.text = ((stripSystem messages).getLast h).content) ∧
    ∀ l : List Message, buildHistory l =
      (l.filter fun m => m.role == "user" || m.role == "assistant").map
        fun m => ⟨if m.role = "user" then "user" else "model", [m.content]⟩ := by
  constructor
  · obtain ⟨m, rest, hstrip, hreq⟩ :=
      sendVertexChat_send_req env gnet messages model req hmem
    rw [hstrip, hreq]
    exact ⟨rfl, List.cons_ne_nil m rest, rfl⟩
  · intro l
    induction l with
    | nil => rfl
    | cons m l ih =>
      by_cases hu : m.role = "user"
      · simp only [buildHistory, roleToGemini, List.filterMap_cons,
          List.filter_cons, hu] at ih ⊢
        simpa [hu] using ih
      · by_cases ha : m.role = "assistant"
        · simp only [buildHistory, roleToGemini, List.filterMap_cons,
            List.filter_cons, hu, ha] at ih ⊢
          simpa [hu] using ih
        · simp only [buildHistory, roleToGemini, List.filterMap_cons,
            List.filter_cons, hu, ha] at ih ⊢
          simpa [hu, ha] using ih

/-- C5 witness: unknown roles are dropped from the history, `assistant`
becomes `model`, and the final message is the submitted turn. -/
theorem c5_history_mapping_witness :
    (GeminiRequest.history
        ⟨none, [⟨"user", ["a"]⟩, ⟨"model", ["b"]⟩], "c"⟩ =
      buildHistory (stripSystem [⟨"user", "a"⟩, ⟨"tool", "x"⟩,
        ⟨"assistant", "b"⟩, ⟨"user", "c"⟩]).dropLast ∧
     ∃ h : stripSystem [⟨"user", "a"⟩, ⟨"tool", "x"⟩,
        ⟨"assistant", "b"⟩, ⟨"user", "c"⟩] ≠ [],
       GeminiRequest.text ⟨none, [⟨"user", ["a"]⟩, ⟨"model", ["b"]⟩], "c"⟩ =
         ((stripSystem [⟨"user", "a"⟩, ⟨"tool", "x"⟩,
            ⟨"assistant", "b"⟩, ⟨"user", "c"⟩]).getLast h).content) ∧
    ∀ l : List Message, buildHistory l =
      (l.filter fun m => m.role == "user" || m.role == "assistant").map
        fun m => ⟨if m.role = "user" then "user" else "model", [m.content]⟩ :=
  c5_history_mapping ⟨"", "gk"⟩ ⟨true, fun _ => .ok ⟨[⟨["ok"]⟩]⟩⟩
    "gemini-pro" [⟨"user", "a"⟩, ⟨"tool", "x"⟩, ⟨"assistant", "b"⟩, ⟨"user", "c"⟩]
    ⟨none, [⟨"user", ["a"]⟩, ⟨"model", ["b"]⟩], "c"⟩ (by decide)

/-- C6: on a non-success HTTP status the completion-style backend fails
with a `ProviderError` carrying the raw response body; on a 200 response
that decodes, it returns the first choice's message content, and fails
with a `ProviderError` when zero choices are returned. -/
theorem c6_sendChat_response (apiKey : String) (net : OpenAINet)
    (messages : List Message) (model : String) (resp : HTTPResponse)
    (hresp : net.doRequest ⟨model, messages⟩ = .ok resp) :
    (resp.status ≠ 200 →
      sendChat apiKey net messages model =
        (.err (.apiError resp.body), [.openaiPost ⟨model, messages⟩]) ∧
      isProviderError (.apiError resp.body) = true) ∧
    (resp.status = 200 → ∀ rb, resp.decoded = some rb →
      (rb.choices = [] →
        sendChat apiKey net messages model =
          (.err .noChoices, [.openaiPost ⟨model, messages⟩]) ∧
        isProviderError .noChoices = true) ∧
      (∀ c cs, rb.choices = c :: cs →
        sendChat apiKey net messages model =
          (.ok c.message.content, [.openaiPost ⟨model, messages⟩]))) := by
  refine ⟨fun hs => ⟨?_, rfl⟩, fun hs rb hrb => ⟨fun hc => ⟨?_, rfl⟩, fun c cs hc => ?_⟩⟩
  · simp [sendChat, hresp, hs]
  · simp [sendChat, hresp, hs, hrb, hc]
  · simp [sendChat, hresp, hs, hrb, hc]

/-- C6 witness: a 404 response, a 200 response with one choice, and a
200 response with zero choices, each exercising one branch. -/
theorem c6_sendChat_response_witness :
    (sendChat "sk" ⟨fun _ => .ok ⟨404, "bad request", none⟩⟩ [] "gpt-4" =
       (.err (.apiError "bad request"), [.openaiPost ⟨"gpt-4", []⟩]) ∧
     isProviderError (.apiError "bad request") = true) ∧
    sendChat "sk"
        ⟨fun _ => .ok ⟨200, "",
          some ⟨"id", "chat.completion", 0, "gpt-4",
            [⟨0, ⟨"assistant", "hello"⟩, "stop"⟩]⟩⟩⟩ [] "gpt-4" =
      (.ok "hello", [.openaiPost ⟨"gpt-4", []⟩]) ∧
    (sendChat "sk"
        ⟨fun _ => .ok ⟨200, "", some ⟨"id", "chat.completion", 0, "gpt-4", []⟩⟩⟩
        [] "gpt-4" =
       (.err .noChoices, [.openaiPost ⟨"gpt-4", []⟩]) ∧
     isProviderError .noChoices = true) :=
  ⟨(c6_sendChat_response "sk" ⟨fun _ => .ok ⟨404, "bad request", none⟩⟩
      [] "gpt-4" ⟨404, "bad request", none⟩ rfl).1 (by decide),
   ((c6_sendChat_response "sk"
      ⟨fun _ => .ok ⟨200, "",
        some ⟨"id", "chat.completion", 0, "gpt-4",
          [⟨0, ⟨"assistant", "hello"⟩, "stop"⟩]⟩⟩⟩ [] "gpt-4"
      ⟨200, "", some ⟨"id", "chat.completion", 0, "gpt-4",
        [⟨0, ⟨"assistant", "hello"⟩, "stop"⟩]⟩⟩ rfl).2 rfl _ rfl).2
      ⟨0, ⟨"assistant", "hello"⟩, "stop"⟩ [] rfl,
   ((c6_sendChat_response "sk"
      ⟨fun _ => .ok ⟨200, "", some ⟨"id", "chat.completion", 0, "gpt-4", []⟩⟩⟩
      [] "gpt-4"
      ⟨200, "", some ⟨"id", "chat.completion", 0, "gpt-4", []⟩⟩ rfl).2 rfl _ rfl).1
      rfl⟩

/-- C9: with a Gemini-prefixed model, the Gemini credential present and
the client construction succeeding, an empty conversation — or one
consisting solely of a single system message — drives `sendVertexChat`
into `messages[len(messages)-1]` with an empty slice: `getReply` panics
instead of returning an error value, and nothing is sent. -/
theorem c9_empty_conversation_panics (env : Env) (onet : OpenAINet)
    (gnet : GeminiNet) (messages : List Message) (model : String)
    (hm : isVertexModel model = true) (hk : env.geminiKey ≠ "")
    (hc : gnet.clientOk = true)
    (hmsg : messages = [] ∨ ∃ s, messages = [⟨"system", s⟩]) :
    getReply env onet gnet messages model = (.panicked, []) := by
  rcases hmsg with h | ⟨s, h⟩ <;> subst h <;>
    simp [getReply, hm, sendVertexChat, hk, hc, stripSystem, systemPromptOf]

/-- C9 witness: both panic shapes at concrete inputs. -/
theorem c9_empty_conversation_panics_witness :
    getReply ⟨"", "gk"⟩ ⟨fun _ => .error ()⟩ ⟨true, fun _ => .error ()⟩
        [] "gemini-pro" = (.panicked, []) ∧
    getReply ⟨"", "gk"⟩ ⟨fun _ => .error ()⟩ ⟨true, fun _ => .error ()⟩
        [⟨"system", "be nice"⟩] "gemini-pro" = (.panicked, []) :=
  ⟨c9_empty_conversation_panics ⟨"", "gk"⟩ ⟨fun _ => .error ()⟩
      ⟨true, fun _ => .error ()⟩ [] "gemini-pro" (by decide) (by decide) rfl
      (Or.inl rfl),
   c9_empty_conversation_panics ⟨"", "gk"⟩ ⟨fun _ => .error ()⟩
      ⟨true, fun _ => .error ()⟩ [⟨"system", "be nice"⟩] "gemini-pro"
      (by decide) (by decide) rfl (Or.inr ⟨"be nice", rfl⟩)⟩

/-! ### Paths: `path/filepath.Clean` and `Join` (unix rules)

`getHistoryDir` computes `filepath.Join(configDir, "q", "history")`;
`saveConversation`/`loadConversation` compute
`filepath.Join(historyDir, threadName + ".json")`.  `Join` concatenates
the elements starting from the first nonempty one with `/` and runs the
lexical `Clean` algorithm (collapse `//`, drop `.`, resolve `..`). -/

/-- Whether a unix path is rooted (starts with `/`). -/
def isRooted : List Char → Bool
  | [] => false
  | c :: _ => c == '/'

/-- Split a path into its `/`-separated parts. -/
def splitSlash : List Char → List (List Char)
  | [] => [[]]
  | c :: rest =>
    if c = '/' then [] :: splitSlash rest
    else
      match splitSlash rest with
      | [] => [[c]]
      | p :: ps => (c :: p) :: ps

/-- One step of `Clean`'s element loop over the (reversed) output stack:
skip empty and `.` elements; on `..` pop a poppable element, keep
leading `..`s of relative paths, and drop `..` at the root. -/
def elemStep (rooted : Bool) (acc : List (List Char)) (p : List Char) :
    List (List Char) :=
  if p = [] ∨ p = ['.'] then acc
  else if p = ['.', '.'] then
    match acc with
    | [] => if rooted then [] else [['.', '.']]
    | top :: rest => if top = ['.', '.'] then ['.', '.'] :: acc else rest
  else p :: acc

/-- Join path elements back with `/`. -/
def joinSlash : List (List Char) → List Char
  | [] => []
  | [p] => p
  | p :: ps => p ++ '/' :: joinSlash ps

/-- `filepath.Clean` on unix, on the character list of a path. -/
def cleanList (l : List Char) : List Char :=
  let rooted := isRooted l
  let stack := (splitSlash l).foldl (elemStep rooted) []
  let body := joinSlash stack.reverse
  if rooted then '/' :: body
  else if body = [] then ['.'] else body

/-- `filepath.Clean` on unix. -/
def clean (s : String) : String := ⟨cleanList s.data⟩

/-- `strings.Join(elems, "/")`. -/
def interSlash : List String → String
  | [] => ""
  | [e] => e
  | e :: es => e ++ "/" ++ interSlash es

/-- `filepath.Join`: drop leading empty elements, join the rest with `/`
and `Clean` the result (`Clean` collapses the `//` and trailing `/`
that interior or trailing empty elements would have produced). -/
def joinPath (elems : List String) : String :=
  match elems.dropWhile (fun e => e == "") with
  | [] => ""
  | es => clean (interSlash es)

/-- `getHistoryDir` from `types.go` (the `MkdirAll` side effect is the
store model's always-existing directory): the path
`filepath.Join(configDir, "q", "history")` under `os.UserConfigDir()`. -/
def histDir (configDir : String) : String :=
  joinPath [configDir, "q", "history"]

/-- The file path `saveConversation` writes:
`filepath.Join(historyDir, fmt.Sprintf("%s.json", threadName))`. -/
def savePath (configDir threadName : String) : String :=
  joinPath [histDir configDir, threadName ++ ".json"]

/-- The file path `loadConversation` reads — the same expression as in
`saveConversation`. -/
def loadPath (configDir threadName : String) : String :=
  joinPath [histDir configDir, threadName ++ ".json"]

/-! ### The filesystem store

A flat map from absolute path strings to file contents.  `os.Create`
truncates/overwrites, so `setFile` replaces the entry of an existing
key; `os.ReadDir` enumerates a directory's entries (the store order
stands in for `ReadDir`'s name order, which none of the properties
below depend on). -/

/-- The filesystem: an association list from paths to file contents. -/
abbrev Store := List (String × String)

/-- Write (create or overwrite) a file. -/
def setFile : Store → String → String → Store
  | [], k, v => [(k, v)]
  | e :: st, k, v => if e.1 = k then (k, v) :: st else e :: setFile st k v

/-- Read a file. -/
def getFile : Store → String → Option String
  | [], _ => none
  | e :: st, k => if e.1 = k then some e.2 else getFile st k

/-- Drop an expected prefix from a character list. -/
def stripPrefixL : List Char → List Char → Option (List Char)
  | [], l => some l
  | _ :: _, [] => none
  | p :: ps, c :: cs => if p = c then stripPrefixL ps cs else none

/-- The characters of the `.json` extension. -/
def jsonExt : List Char := ['.', 'j', 's', 'o', 'n']

/-- `strings.HasSuffix(name, ".json")` followed by
`strings.TrimSuffix(name, ".json")`. -/
def dropJsonSuffix (l : List Char) : Option (List Char) :=
  if jsonExt.isSuffixOf l then some (l.take (l.length - 5)) else none

/-- The base name of `path` when it lies directly in directory `dir`
(i.e. `path = dir ++ "/" ++ base` with a slash-free base): this is when
`os.ReadDir(dir)` lists it. -/
def baseNameIn (dir path : String) : Option String :=
  match stripPrefixL (dir.data ++ ['/']) path.data with
  | some base => if '/' ∈ base then none else some ⟨base⟩
  | none => none

/-- String made of a character list equals the original string. -/
theorem mk_data (s : String) : String.mk s.data = s := by
  cases s
  rfl

/-- Data of a concatenation of strings. -/
theorem data_append (s t : String) : (s ++ t).data = s.data ++ t.data :=
  String.data_append s t

/-- C10: both `saveConversation` and `loadConversation` use exactly
`Join(historyDir, threadName + ".json")` with no sanitization of the
thread name, and for the thread name `../evil` the resulting path lies
outside the history directory. -/
theorem c10_no_sanitization (configDir threadName : String) :
    savePath configDir threadName =
      joinPath [histDir configDir, threadName ++ ".json"] ∧
    loadPath configDir threadName = savePath configDir threadName ∧
    savePath "/home/user/.config" "../evil" = "/home/user/.config/q/evil.json" ∧
    ("/home/user/.config/q/history/".data.isPrefixOf
        (savePath "/home/user/.config" "../evil").data) = false :=
  ⟨rfl, rfl, by decide, by decide⟩

/-! ### JSON encoding of `[]Message`

`saveConversation` uses `json.NewEncoder(file)` with
`SetIndent("", "  ")` (HTML escaping on, the default), then `Encode`,
which appends a final newline.  For a non-empty slice this produces

  `[` `\n` `  ` element ( `,` `\n` `  ` element )* `\n` `]` `\n`

where each element is

  `{` `\n` `    "role": ` string `,` `\n` `    "content": ` string
  `\n` `  }`

and strings are quoted with Go's escaping: `"` `\` as `\"` `\\`,
newline/carriage-return/tab as `\n` `\r` `\t`, other control bytes as
`\u00XX` (lowercase hex), the HTML-sensitive `<` `>` `&` as `<`
`>` `&`, U+2028/U+2029 as ` `/` `, and every other
character literally.  An empty slice encodes as `[]` plus newline. -/

/-- Lowercase hexadecimal digit. -/
def hexDigitChar (n : Nat) : Char :=
  if n < 10 then Char.ofNat ('0'.toNat + n)
  else Char.ofNat ('a'.toNat + (n - 10))

/-- Go's JSON string escaping of one character (HTML escaping on). -/
def escapeChar (c : Char) : List Char :=
  if c = '"' then ['\\', '"']
  else if c = '\\' then ['\\', '\\']
  else if c = '\n' then ['\\', 'n']
  else if c = '\r' then ['\\', 'r']
  else if c = '\t' then ['\\', 't']
  else if c.toNat < 0x20 then
    ['\\', 'u', '0', '0', hexDigitChar (c.toNat / 16), hexDigitChar (c.toNat % 16)]
  else if c = '<' then ['\\', 'u', '0', '0', '3', 'c']
  else if c = '>' then ['\\', 'u', '0', '0', '3', 'e']
  else if c = '&' then ['\\', 'u', '0', '0', '2', '6']
  else if c.toNat = 0x2028 then ['\\', 'u', '2', '0', '2', '8']
  else if c.toNat = 0x2029 then ['\\', 'u', '2', '0', '2', '9']
  else [c]

/-- Escape a whole character list. -/
def escList : List Char → List Char
  | [] => []
  | c :: rest => escapeChar c ++ escList rest

/-- A quoted, escaped JSON string literal. -/
def encStringL (s : String) : List Char :=
  '"' :: (escList s.data ++ ['"'])

/-- `{` newline, four spaces, `"role": `. -/
def objOpenL : List Char :=
  ['\x7b', '\n', ' ', ' ', ' ', ' ', '"', 'r', 'o', 'l', 'e', '"', ':', ' ']

/-- `,` newline, four spaces, `"content": `. -/
def objMidL : List Char :=
  [',', '\n', ' ', ' ', ' ', ' ', '"', 'c', 'o', 'n', 't', 'e', 'n', 't',
   '"', ':', ' ']

/-- Newline, two spaces, `}`. -/
def objCloseL : List Char := ['\n', ' ', ' ', '\x7d']

/-- `[` newline, two spaces. -/
def arrOpenL : List Char := ['[', '\n', ' ', ' ']

/-- `,` newline, two spaces — the separator between elements. -/
def arrSepL : List Char := [',', '\n', ' ', ' ']

/-- Newline, `]`, the final newline appended by `Encoder.Encode`. -/
def arrCloseL : List Char := ['\n', ']', '\n']

/-- `[]` plus the final newline: the encoding of an empty slice. -/
def emptyArrL : List Char := ['[', ']', '\n']

/-- One encoded `Message` object, fields in declaration order
`role` then `content`. -/
def encMessageL (m : Message) : List Char :=
  objOpenL ++ encStringL m.role ++ objMidL ++ encStringL m.content ++ objCloseL

/-- Join encoded elements with the element separator. -/
def encElems : List (List Char) → List Char
  | [] => []
  | [x] => x
  | x :: xs => x ++ arrSepL ++ encElems xs

/-- The full encoder output for a message list. -/
def encodeMessagesL : List Message → List Char
  | [] => emptyArrL
  | ms => arrOpenL ++ encElems (ms.map encMessageL) ++ arrCloseL

/-- What `saveConversation` writes for a conversation. -/
def encodeMessages (ms : List Message) : String :=
  ⟨encodeMessagesL ms⟩

/-! ### JSON decoding into `[]Message`

`loadConversation` uses `json.Decoder.Decode(&messages)`.  The decoder
below embeds the stdlib behaviour on the value shapes that can decode
into `[]Message`: arbitrary whitespace between tokens, `null` (leaves
the slice nil), arrays of objects with string-valued fields, where the
fields `role`/`content` assign the struct fields (last assignment
wins) and other string-valued keys are ignored; full Go string
unescaping including `\uXXXX` and surrogate pairs (a lone surrogate
becomes U+FFFD, and raw control characters inside strings are
rejected).  `Decode` reads one value and leaves trailing input
unread. -/

/-- JSON tokens. -/
inductive Tok where
  | lbracket | rbracket | lbrace | rbrace | colon | comma | nul
  | str (s : String)
deriving DecidableEq, Repr

/-- A hexadecimal digit's value (`getu4` accepts both cases). -/
def hexVal (c : Char) : Option Nat :=
  if '0' ≤ c ∧ c ≤ '9' then some (c.toNat - '0'.toNat)
  else if 'a' ≤ c ∧ c ≤ 'f' then some (c.toNat - 'a'.toNat + 10)
  else if 'A' ≤ c ∧ c ≤ 'F' then some (c.toNat - 'A'.toNat + 10)
  else none

/-- Decode a `\uXXXX` escape (the characters after `\u`): four hex
digits; a surrogate tries to pair with an immediately following
`\uXXXX` low surrogate, else yields U+FFFD (Go `unquoteBytes`).
Returns the decoded character and the remaining input. -/
def unescapeU : List Char → Option (Char × List Char)
  | h1 :: h2 :: h3 :: h4 :: rest =>
    match hexVal h1, hexVal h2, hexVal h3, hexVal h4 with
    | some a, some b, some c, some d =>
      if 0xD800 ≤ ((a * 16 + b) * 16 + c) * 16 + d ∧
          ((a * 16 + b) * 16 + c) * 16 + d < 0xE000 then
        match rest with
        | '\\' :: 'u' :: g1 :: g2 :: g3 :: g4 :: rest2 =>
          match hexVal g1, hexVal g2, hexVal g3, hexVal g4 with
          | some a2, some b2, some c2, some d2 =>
            if ((a * 16 + b) * 16 + c) * 16 + d < 0xDC00 ∧
                0xDC00 ≤ ((a2 * 16 + b2) * 16 + c2) * 16 + d2 ∧
                ((a2 * 16 + b2) * 16 + c2) * 16 + d2 < 0xE000 then
              some (Char.ofNat (0x10000 +
                ((((a * 16 + b) * 16 + c) * 16 + d) - 0xD800) * 0x400 +
                ((((a2 * 16 + b2) * 16 + c2) * 16 + d2) - 0xDC00)), rest2)
            else some ('�', rest)
          | _, _, _, _ => some ('�', rest)
        | _ => some ('�', rest)
      else some (Char.ofNat (((a * 16 + b) * 16 + c) * 16 + d), rest)
    | _, _, _, _ => none
  | _ => none

/-- Decode one string escape (the characters after a backslash),
returning the decoded character and the remaining input. -/
def unescape1 : List Char → Option (Char × List Char)
  | [] => none
  | e :: rest =>
    if e = '"' then some ('"', rest)
    else if e = '\\' then some ('\\', rest)
    else if e = '/' then some ('/', rest)
    else if e = 'b' then some ('\x08', rest)
    else if e = 'f' then some ('\x0c', rest)
    else if e = 'n' then some ('\n', rest)
    else if e = 'r' then some ('\r', rest)
    else if e = 't' then some ('\t', rest)
    else if e = 'u' then unescapeU rest
    else none

/-- Prepend a character to the scanned-content component. -/
def mapCons (c : Char) (r : Option (List Char × List Char)) :
    Option (List Char × List Char) :=
  r.map fun p => (c :: p.1, p.2)

/-- A `\uXXXX` decode consumes at least the four digits. -/
theorem unescapeU_length (l : List Char) (p : Char × List Char)
    (h : unescapeU l = some p) : p.2.length < l.length := by
  match l with
  | [] => simp [unescapeU] at h
  | [a] => simp [unescapeU] at h
  | [a, b] => simp [unescapeU] at h
  | [a, b, c] => simp [unescapeU] at h
  | h1 :: h2 :: h3 :: h4 :: rest =>
    simp only [unescapeU] at h
    repeat' split at h
    all_goals
      first
      | (simp only [Option.some.injEq] at h
         subst h
         dsimp only
         simp only [List.length_cons]
         omega)
      | simp at h

/-- A string escape consumes at least one character. -/
theorem unescape1_length (l : List Char) (p : Char × List Char)
    (h : unescape1 l = some p) : p.2.length < l.length := by
  match l with
  | [] => simp [unescape1] at h
  | e :: rest =>
    simp only [unescape1] at h
    repeat' split at h
    all_goals
      first
      | (simp only [Option.some.injEq] at h
         subst h
         dsimp only
         simp only [List.length_cons]
         omega)
      | (refine Nat.lt_trans (unescapeU_length rest p h) ?_
         simp)
      | simp at h

/-- Scan the body of a JSON string literal up to the closing quote,
returning the unescaped content and the input after the quote.  Raw
control characters are rejected (Go does). -/
def scanString : List Char → Option (List Char × List Char)
  | [] => none
  | c :: rest =>
    if c = '"' then some ([], rest)
    else if c = '\\' then
      match h : unescape1 rest with
      | some p => mapCons p.1 (scanString p.2)
      | none => none
    else if c.toNat < 0x20 then none
    else mapCons c (scanString rest)
termination_by l => l.length
decreasing_by
  all_goals simp only [List.length_cons]
  all_goals
    first
    | omega
    | (have hlen := unescape1_length _ _ h; omega)

/-- Auxiliary bound for `scanString_length`, by induction on a length
bound. -/
theorem scanString_length_aux (n : Nat) :
    ∀ l : List Char, l.length ≤ n → ∀ p : List Char × List Char,
      scanString l = some p → p.2.length < l.length := by
  induction n with
  | zero =>
    intro l hl p h
    match l with
    | [] => rw [scanString] at h; exact absurd h (by simp)
    | c :: rest => simp at hl
  | succ n ih =>
    intro l hl p h
    match l with
    | [] => rw [scanString] at h; exact absurd h (by simp)
    | c :: rest =>
      have hl' : rest.length ≤ n := by simp at hl; omega
      rw [scanString] at h
      split at h
      · simp only [Option.some.injEq] at h
        subst h
        simp
      · split at h
        · split at h
          · rename_i q hq
            simp only [mapCons, Option.map_eq_some'] at h
            obtain ⟨a, ha, hp⟩ := h
            subst hp
            have h1 := unescape1_length rest q hq
            have h2 := ih q.2 (by omega) a ha
            simp only [List.length_cons]
            omega
          · exact absurd h (by simp)
        · split at h
          · exact absurd h (by simp)
          · simp only [mapCons, Option.map_eq_some'] at h
            obtain ⟨a, ha, hp⟩ := h
            subst hp
            have h2 := ih rest hl' a ha
            simp only [List.length_cons]
            omega

/-- Scanning a string consumes at least the closing quote. -/
theorem scanString_length (l : List Char) (p : List Char × List Char)
    (h : scanString l = some p) : p.2.length < l.length :=
  scanString_length_aux l.length l (le_refl _) p h

/-- Attach the defining equation to an optional value (used so that the
termination argument of `tokens` can see the `scanString` call). -/
def optAttach {α : Type} : (o : Option α) → Option { x : α // o = some x }
  | some a => some ⟨a, rfl⟩
  | none => none

/-- Tokenize JSON input (the `null` keyword is recognised up front; all
other input is handled character by character). -/
def tokens : List Char → Option (List Tok)
  | [] => some []
  | 'n' :: 'u' :: 'l' :: 'l' :: rest => (tokens rest).map (Tok.nul :: ·)
  | c :: rest =>
    if c = ' ' ∨ c = '\t' ∨ c = '\n' ∨ c = '\r' then tokens rest
    else if c = '[' then (tokens rest).map (Tok.lbracket :: ·)
    else if c = ']' then (tokens rest).map (Tok.rbracket :: ·)
    else if c = '\x7b' then (tokens rest).map (Tok.lbrace :: ·)
    else if c = '\x7d' then (tokens rest).map (Tok.rbrace :: ·)
    else if c = ':' then (tokens rest).map (Tok.colon :: ·)
    else if c = ',' then (tokens rest).map (Tok.comma :: ·)
    else if c = '"' then
      match optAttach (scanString rest) with
      | some ps => (tokens ps.1.2).map (Tok.str ⟨ps.1.1⟩ :: ·)
      | none => none
    else none
termination_by l => l.length
decreasing_by
  all_goals simp only [List.length_cons]
  all_goals
    first
    | omega
    | (have hlen := scanString_length _ _ ps.2; omega)

/-- Decoding one object field into the `Message` being built:
`role`/`content` assign the struct fields (a later duplicate key wins),
any other key is ignored. -/
def assignField (m : Message) (k v : String) : Message :=
  if k = "role" then { m with role := v }
  else if k = "content" then { m with content := v }
  else m

mutual

/-- Parse array elements (each a message object) from the token list. -/
def parseElems (acc : List Message) : List Tok → Option (List Message)
  | Tok.lbrace :: Tok.rbrace :: rest => afterElem (⟨"", ""⟩ :: acc) rest
  | Tok.lbrace :: rest => parseField acc ⟨"", ""⟩ rest
  | _ => none

/-- Parse the fields of one object: after a `"key": "value"` pair, a
comma continues the field list and a `}` closes the object. -/
def parseField (acc : List Message) (m : Message) :
    List Tok → Option (List Message)
  | Tok.str k :: Tok.colon :: Tok.str v :: Tok.comma :: rest =>
    parseField acc (assignField m k v) rest
  | Tok.str k :: Tok.colon :: Tok.str v :: Tok.rbrace :: rest =>
    afterElem (assignField m k v :: acc) rest
  | _ => none

/-- After one element: a comma continues the array, `]` finishes it. -/
def afterElem (acc : List Message) : List Tok → Option (List Message)
  | Tok.comma :: rest => parseElems acc rest
  | Tok.rbracket :: _ => some acc.reverse
  | _ => none

end

/-- Decode one JSON value into a message list (`null` leaves the Go
slice nil, i.e. the empty conversation); trailing tokens are left
unread as `json.Decoder.Decode` does. -/
def decodeTokens : List Tok → Option (List Message)
  | Tok.nul :: _ => some []
  | Tok.lbracket :: Tok.rbracket :: _ => some []
  | Tok.lbracket :: rest => parseElems [] rest
  | _ => none

/-- `json.Decoder.Decode(&messages)` on a file's contents. -/
def decodeMessages (s : String) : Option (List Message) :=
  (tokens s.data).bind decodeTokens

/-! ### The thread store operations -/

/-- `saveConversation` from `types.go`: encode the messages and write
them (create/overwrite) at
`<configDir>/q/history/<threadName>.json`. -/
def saveConversation (st : Store) (configDir : String)
    (messages : List Message) (threadName : String) : Store :=
  setFile st (savePath configDir threadName) (encodeMessages messages)

/-- `loadConversation` from `types.go`: read the file at
`<configDir>/q/history/<threadName>.json` and decode it (`none` covers
both a missing file and a body that fails to decode). -/
def loadConversation (st : Store) (configDir threadName : String) :
    Option (List Message) :=
  (getFile st (loadPath configDir threadName)).bind decodeMessages

/-- `listConversations` from `types.go`: the non-directory entries of
the history directory whose name ends in `.json`, with that extension
stripped. -/
def listConversations (st : Store) (configDir : String) : List String :=
  (st.filterMap fun e => baseNameIn (histDir configDir) e.1).filterMap
    fun nm => (dropJsonSuffix nm.data).map (fun l => (⟨l⟩ : String))

/-! ### Round trip: decoding an encoded conversation -/

/-- `optAttach` of a value known to be `none`. -/
theorem optAttach_none {α : Type} (o : Option α) (h : o = none) :
    optAttach o = none := by subst h; rfl

/-- `optAttach` of a value known to be `some`. -/
theorem optAttach_some {α : Type} (o : Option α) (a : α) (h : o = some a) :
    optAttach o = some ⟨a, h⟩ := by subst h; rfl

/-- The tokenizer on a quote: scan the string body. -/
theorem tokens_quote (rest : List Char) :
    tokens ('"' :: rest) =
      match scanString rest with
      | some p => (tokens p.2).map (Tok.str ⟨p.1⟩ :: ·)
      | none => none := by
  cases hscan : scanString rest with
  | none =>
    rw [tokens.eq_def]
    simp
    rw [optAttach_none _ hscan]
  | some p =>
    rw [tokens.eq_def]
    simp
    rw [optAttach_some _ _ hscan]

/-- The tokenizer skips a space. -/
theorem tokens_sp (r : List Char) : tokens (' ' :: r) = tokens r := by
  rw [tokens.eq_def]; simp

/-- The tokenizer skips a newline. -/
theorem tokens_nl (r : List Char) : tokens ('\n' :: r) = tokens r := by
  rw [tokens.eq_def]; simp

/-- The tokenizer on `[`. -/
theorem tokens_lbracket (r : List Char) :
    tokens ('[' :: r) = (tokens r).map (Tok.lbracket :: ·) := by
  rw [tokens.eq_def]; simp

/-- The tokenizer on `]`. -/
theorem tokens_rbracket (r : List Char) :
    tokens (']' :: r) = (tokens r).map (Tok.rbracket :: ·) := by
  rw [tokens.eq_def]; simp

/-- The tokenizer on an opening brace. -/
theorem tokens_lbrace (r : List Char) :
    tokens ('\x7b' :: r) = (tokens r).map (Tok.lbrace :: ·) := by
  rw [tokens.eq_def]; simp

/-- The tokenizer on a closing brace. -/
theorem tokens_rbrace (r : List Char) :
    tokens ('\x7d' :: r) = (tokens r).map (Tok.rbrace :: ·) := by
  rw [tokens.eq_def]; simp

/-- The tokenizer on a colon. -/
theorem tokens_colon (r : List Char) :
    tokens (':' :: r) = (tokens r).map (Tok.colon :: ·) := by
  rw [tokens.eq_def]; simp

/-- The tokenizer on a comma. -/
theorem tokens_comma (r : List Char) :
    tokens (',' :: r) = (tokens r).map (Tok.comma :: ·) := by
  rw [tokens.eq_def]; simp

/-- `hexVal` inverts `hexDigitChar` on digit values. -/
theorem hexVal_hexDigitChar (n : Nat) (h : n < 16) :
    hexVal (hexDigitChar n) = some n := by
  interval_cases n <;> decide

/-- Scanning the escape of one character recovers that character: Go's
decoder inverts Go's encoder character by character. -/
theorem scanString_escapeChar (c : Char) (tail : List Char) :
    scanString (escapeChar c ++ tail) = mapCons c (scanString tail) := by
  by_cases h1 : c = '"'
  · subst h1
    simp only [escapeChar, if_pos rfl, List.cons_append, List.nil_append]
    rw [scanString.eq_def]
    simp [unescape1]
  · by_cases h2 : c = '\\'
    · subst h2
      simp only [escapeChar, h1, if_false, if_pos rfl, List.cons_append,
        List.nil_append, reduceIte]
      rw [scanString.eq_def]
      simp [unescape1]
    · by_cases h3 : c = '\n'
      · subst h3
        simp only [escapeChar, h1, h2, if_false, if_pos rfl, reduceIte,
          List.cons_append, List.nil_append]
        rw [scanString.eq_def]
        simp [unescape1]
      · by_cases h4 : c = '\r'
        · subst h4
          simp only [escapeChar, h1, h2, h3, if_false, if_pos rfl, reduceIte,
            List.cons_append, List.nil_append]
          rw [scanString.eq_def]
          simp [unescape1]
        · by_cases h5 : c = '\t'
          · subst h5
            simp only [escapeChar, h1, h2, h3, h4, if_false, if_pos rfl,
              reduceIte, List.cons_append, List.nil_append]
            rw [scanString.eq_def]
            simp [unescape1]
          · by_cases h6 : c.toNat < 0x20
            · have hd1 : hexVal (hexDigitChar (c.toNat / 16)) =
                  some (c.toNat / 16) :=
                hexVal_hexDigitChar _ (by omega)
              have hd2 : hexVal (hexDigitChar (c.toNat % 16)) =
                  some (c.toNat % 16) :=
                hexVal_hexDigitChar _ (Nat.mod_lt _ (by norm_num))
              simp only [escapeChar, h1, h2, h3, h4, h5, if_pos h6, reduceIte,
                List.cons_append, List.nil_append]
              rw [scanString.eq_def]
              simp only [Char.reduceEq, reduceIte]
              rw [show unescape1
                    ('u' :: '0' :: '0' :: hexDigitChar (c.toNat / 16) ::
                      hexDigitChar (c.toNat % 16) :: tail) =
                  unescapeU ('0' :: '0' :: hexDigitChar (c.toNat / 16) ::
                      hexDigitChar (c.toNat % 16) :: tail) from by
                simp [unescape1]]
              rw [unescapeU]
              rw [show hexVal '0' = some 0 from by decide, hd1, hd2]
              simp only
              rw [if_neg (by omega)]
              have harith : ((0 * 16 + 0) * 16 + c.toNat / 16) * 16 +
                  c.toNat % 16 = c.toNat := by omega
              rw [harith, Char.ofNat_toNat]
            · by_cases h7 : c = '<'
              · subst h7
                simp only [escapeChar, h1, h2, h3, h4, h5, h6, if_false,
                  if_pos rfl, reduceIte, List.cons_append, List.nil_append]
                rw [scanString.eq_def]
                simp [unescape1, unescapeU, hexVal]
              · by_cases h8 : c = '>'
                · subst h8
                  simp only [escapeChar, h1, h2, h3, h4, h5, h6, h7, if_false,
                    if_pos rfl, reduceIte, List.cons_append, List.nil_append]
                  rw [scanString.eq_def]
                  simp [unescape1, unescapeU, hexVal]
                · by_cases h9 : c = '&'
                  · subst h9
                    simp only [escapeChar, h1, h2, h3, h4, h5, h6, h7, h8,
                      if_false, if_pos rfl, reduceIte, List.cons_append,
                      List.nil_append]
                    rw [scanString.eq_def]
                    simp [unescape1, unescapeU, hexVal]
                  · by_cases h10 : c.toNat = 0x2028
                    · have hc : c = Char.ofNat 0x2028 := by
                        rw [← Char.ofNat_toNat c, h10]
                      subst hc
                      rw [show escapeChar (Char.ofNat 0x2028) =
                          ['\\', 'u', '2', '0', '2', '8'] from by decide]
                      rw [scanString.eq_def]
                      simp [unescape1, unescapeU, hexVal]
                    · by_cases h11 : c.toNat = 0x2029
                      · have hc : c = Char.ofNat 0x2029 := by
                          rw [← Char.ofNat_toNat c, h11]
                        subst hc
                        rw [show escapeChar (Char.ofNat 0x2029) =
                            ['\\', 'u', '2', '0', '2', '9'] from by decide]
                        rw [scanString.eq_def]
                        simp [unescape1, unescapeU, hexVal]
                      · simp only [escapeChar, h1, h2, h3, h4, h5, h6, h7, h8,
                          h9, h10, h11, if_false, reduceIte,
                          List.cons_append, List.nil_append]
                        rw [scanString.eq_def]
                        simp [h1, h2, h6]

/-- Scanning an escaped string body up to its closing quote recovers
the original characters. -/
theorem scanString_escList (s : List Char) (rest : List Char) :
    scanString (escList s ++ '"' :: rest) = some (s, rest) := by
  induction s with
  | nil =>
    rw [escList, List.nil_append, scanString.eq_def]
    simp
  | cons c s ih =>
    rw [escList, List.append_assoc, scanString_escapeChar, ih]
    rfl

/-- The tokenizer on a full encoded string literal. -/
theorem tokens_encString (s : String) (r : List Char) :
    tokens (encStringL s ++ r) = (tokens r).map (fun ts => Tok.str s :: ts) := by
  have hsh : encStringL s ++ r = '"' :: (escList s.data ++ ('"' :: r)) := by
    simp [encStringL]
  rw [hsh, tokens_quote, scanString_escList]

/-- The tokenizer on the object opener up to the `role` key. -/
theorem tokens_objOpen (r : List Char) :
    tokens (objOpenL ++ r) =
      (tokens r).map (fun ts => Tok.lbrace :: Tok.str "role" :: Tok.colon :: ts) := by
  simp only [objOpenL, List.cons_append, List.nil_append]
  rw [tokens_lbrace, tokens_nl, tokens_sp, tokens_sp, tokens_sp, tokens_sp,
    tokens_quote]
  rw [show scanString ('r' :: 'o' :: 'l' :: 'e' :: '"' :: ':' :: ' ' :: r) =
      some ("role".data, ':' :: ' ' :: r) from by
    simp [scanString.eq_def, mapCons]]
  dsimp only
  rw [tokens_colon, tokens_sp]
  simp only [Option.map_map]
  rfl

/-- The tokenizer on the field separator up to the `content` key. -/
theorem tokens_objMid (r : List Char) :
    tokens (objMidL ++ r) =
      (tokens r).map (fun ts => Tok.comma :: Tok.str "content" :: Tok.colon :: ts) := by
  simp only [objMidL, List.cons_append, List.nil_append]
  rw [tokens_comma, tokens_nl, tokens_sp, tokens_sp, tokens_sp, tokens_sp,
    tokens_quote]
  rw [show scanString ('c' :: 'o' :: 'n' :: 't' :: 'e' :: 'n' :: 't' :: '"' ::
        ':' :: ' ' :: r) = some ("content".data, ':' :: ' ' :: r) from by
    simp [scanString.eq_def, mapCons]]
  dsimp only
  rw [tokens_colon, tokens_sp]
  simp only [Option.map_map]
  rfl

/-- The tokenizer on the object closer. -/
theorem tokens_objClose (r : List Char) :
    tokens (objCloseL ++ r) = (tokens r).map (fun ts => Tok.rbrace :: ts) := by
  simp only [objCloseL, List.cons_append, List.nil_append]
  rw [tokens_nl, tokens_sp, tokens_sp, tokens_rbrace]

/-- The tokenizer on the array opener. -/
theorem tokens_arrOpen (r : List Char) :
    tokens (arrOpenL ++ r) = (tokens r).map (fun ts => Tok.lbracket :: ts) := by
  simp only [arrOpenL, List.cons_append, List.nil_append]
  rw [tokens_lbracket, tokens_nl, tokens_sp, tokens_sp]

/-- The tokenizer on the element separator. -/
theorem tokens_arrSep (r : List Char) :
    tokens (arrSepL ++ r) = (tokens r).map (fun ts => Tok.comma :: ts) := by
  simp only [arrSepL, List.cons_append, List.nil_append]
  rw [tokens_comma, tokens_nl, tokens_sp, tokens_sp]

/-- The tokenizer on the array closer (the end of the document). -/
theorem tokens_arrClose : tokens arrCloseL = some [Tok.rbracket] := by
  simp [arrCloseL, tokens.eq_def]

/-- The token sequence of one encoded message object. -/
def msgToks (m : Message) : List Tok :=
  [Tok.lbrace, Tok.str "role", Tok.colon, Tok.str m.role, Tok.comma,
   Tok.str "content", Tok.colon, Tok.str m.content, Tok.rbrace]

/-- The tokenizer on one encoded message object. -/
theorem tokens_encMessage (m : Message) (r : List Char) :
    tokens (encMessageL m ++ r) = (tokens r).map (fun ts => msgToks m ++ ts) := by
  simp only [encMessageL, List.append_assoc]
  rw [tokens_objOpen, tokens_encString, tokens_objMid, tokens_encString,
    tokens_objClose]
  simp [Option.map_map, msgToks]
  rfl

/-- The token sequence of the encoded elements of a conversation. -/
def elemsToks : List Message → List Tok
  | [] => []
  | [m] => msgToks m
  | m :: ms => msgToks m ++ Tok.comma :: elemsToks ms

/-- The tokenizer on the encoded element list of a nonempty
conversation. -/
theorem tokens_encElems (ms : List Message) (r : List Char) (h : ms ≠ []) :
    tokens (encElems (ms.map encMessageL) ++ r) =
      (tokens r).map (fun ts => elemsToks ms ++ ts) := by
  induction ms with
  | nil => exact absurd rfl h
  | cons m ms ih =>
    cases ms with
    | nil =>
      simp only [List.map, encElems, elemsToks]
      rw [tokens_encMessage]
    | cons m2 ms2 =>
      simp only [List.map] at ih
      simp only [List.map, encElems, elemsToks, List.append_assoc]
      rw [tokens_encMessage, tokens_arrSep, ih (by simp)]
      simp only [Option.map_map]
      rfl

/-- Parsing the token sequence of a nonempty conversation up to the
closing `]` recovers the messages (appended to the accumulator). -/
theorem parseElems_elemsToks (ms : List Message) (h : ms ≠ [])
    (acc : List Message) (r : List Tok) :
    parseElems acc (elemsToks ms ++ Tok.rbracket :: r) =
      some (acc.reverse ++ ms) := by
  induction ms generalizing acc with
  | nil => exact absurd rfl h
  | cons m ms ih =>
    cases ms with
    | nil =>
      simp only [elemsToks, msgToks, List.cons_append, List.nil_append]
      rw [parseElems.eq_def]
      simp only [reduceCtorEq, reduceIte]
      rw [parseField.eq_def]
      simp only [assignField, reduceIte]
      rw [parseField.eq_def]
      simp only [assignField, reduceIte, String.reduceEq]
      rw [afterElem.eq_def]
      simp [List.reverse_cons]
    | cons m2 ms2 =>
      simp only [elemsToks, msgToks, List.cons_append, List.nil_append,
        List.append_assoc]
      rw [parseElems.eq_def]
      simp only [reduceCtorEq, reduceIte]
      rw [parseField.eq_def]
      simp only [assignField, reduceIte]
      rw [parseField.eq_def]
      simp only [assignField, reduceIte, String.reduceEq]
      rw [afterElem.eq_def]
      simp only
      rw [ih (by simp) (m :: acc)]
      simp

/-- Decoding inverts encoding: the JSON written for any conversation
reads back as exactly that conversation. -/
theorem decode_encode (ms : List Message) :
    decodeMessages (encodeMessages ms) = some ms := by
  cases ms with
  | nil =>
    show (tokens emptyArrL).bind decodeTokens = some []
    rw [show tokens emptyArrL = some [Tok.lbracket, Tok.rbracket] from by
      simp [emptyArrL, tokens.eq_def]]
    rfl
  | cons m ms =>
    show (tokens (arrOpenL ++ encElems ((m :: ms).map encMessageL) ++
        arrCloseL)).bind decodeTokens = some (m :: ms)
    rw [List.append_assoc, tokens_arrOpen, tokens_encElems _ _ (by simp),
      tokens_arrClose]
    simp only [Option.map_some, Option.map_some', Option.some_bind,
      Option.bind_some, Option.bind_eq_bind]
    obtain ⟨t, ht⟩ : ∃ t, elemsToks (m :: ms) = Tok.lbrace :: t := by
      cases ms <;> simp [elemsToks, msgToks]
    rw [ht, List.cons_append]
    show parseElems [] (Tok.lbrace :: (t ++ [Tok.rbracket])) = some (m :: ms)
    rw [show Tok.lbrace :: (t ++ [Tok.rbracket]) =
        elemsToks (m :: ms) ++ Tok.rbracket :: [] from by rw [ht]; simp]
    exact parseElems_elemsToks _ (by simp) [] []

/-- Reading back a freshly written file yields its contents. -/
theorem getFile_setFile (st : Store) (k v : String) :
    getFile (setFile st k v) k = some v := by
  induction st with
  | nil => simp [setFile, getFile]
  | cons e st ih =>
    by_cases h : e.1 = k
    · simp [setFile, getFile, h]
    · simp [setFile, getFile, h, ih]

/-- C3: saving a conversation under a thread name and loading that
thread returns an equal conversation — same roles, same contents, same
order — for every conversation and every thread name. -/
theorem c3_save_load_roundtrip (st : Store) (configDir threadName : String)
    (msgs : List Message) :
    loadConversation (saveConversation st configDir msgs threadName)
      configDir threadName = some msgs := by
  unfold loadConversation saveConversation
  rw [show loadPath configDir threadName = savePath configDir threadName
    from rfl]
  rw [getFile_setFile]
  simpa using decode_encode msgs

/-! ### Lexical facts about `Clean` on well-formed inputs -/

/-- Strings with equal character data are equal. -/
theorem data_inj (s t : String) (h : s.data = t.data) : s = t := by
  calc s = ⟨s.data⟩ := (mk_data s).symm
    _ = ⟨t.data⟩ := by rw [h]
    _ = t := mk_data t

/-- `splitSlash` never returns an empty part list. -/
theorem splitSlash_ne_nil (l : List Char) : splitSlash l ≠ [] := by
  cases l with
  | nil => simp [splitSlash]
  | cons c rest =>
    rw [splitSlash]
    by_cases h : c = '/'
    · simp [h]
    · rw [if_neg h]
      cases hs : splitSlash rest <;> simp

/-- Splitting distributes over a separator. -/
theorem splitSlash_append_slash (a b : List Char) :
    splitSlash (a ++ '/' :: b) = splitSlash a ++ splitSlash b := by
  induction a with
  | nil => simp [splitSlash]
  | cons c a ih =>
    rw [List.cons_append, splitSlash, splitSlash, ih]
    by_cases h : c = '/'
    · simp [h]
    · rw [if_neg h, if_neg h]
      cases hs : splitSlash a with
      | nil => exact absurd hs (splitSlash_ne_nil a)
      | cons p ps => simp

/-- A slash-free list is a single part. -/
theorem splitSlash_no_slash (l : List Char) (h : '/' ∉ l) :
    splitSlash l = [l] := by
  induction l with
  | nil => rfl
  | cons c rest ih =>
    rw [splitSlash, if_neg (by intro hc; exact h (by simp [hc]))]
    rw [ih (by intro hm; exact h (by simp [hm]))]

/-- `joinSlash` on a list with at least two parts. -/
theorem joinSlash_cons₂ (x y : List Char) (ys : List (List Char)) :
    joinSlash (x :: y :: ys) = x ++ '/' :: joinSlash (y :: ys) := rfl

/-- Joining after appending one part. -/
theorem joinSlash_append_singleton (xs : List (List Char)) (y : List Char)
    (h : xs ≠ []) :
    joinSlash (xs ++ [y]) = joinSlash xs ++ '/' :: y := by
  induction xs with
  | nil => exact absurd rfl h
  | cons x xs ih =>
    cases xs with
    | nil => rfl
    | cons x2 xs2 =>
      simp only [List.cons_append]
      rw [joinSlash_cons₂, joinSlash_cons₂]
      rw [show x2 :: (xs2 ++ [y]) = (x2 :: xs2) ++ [y] from rfl]
      rw [ih (by simp)]
      simp

/-- Rootedness only depends on the first character. -/
theorem isRooted_append (l x : List Char) (h : l ≠ []) :
    isRooted (l ++ x) = isRooted l := by
  cases l with
  | nil => exact absurd rfl h
  | cons c t => rfl

/-- Appending one plain element (nonempty, slash-free, neither `.` nor
`..`) to a path that `Clean` already fixes, other than `""`, `"."` and
`"/"`, is again fixed by `Clean`. -/
theorem clean_append_elem (d e : String)
    (hclean : clean d = d) (hne : d ≠ "") (hdot : d ≠ ".") (hroot : d ≠ "/")
    (he0 : e.data ≠ []) (he1 : '/' ∉ e.data) (he2 : e.data ≠ ['.'])
    (he3 : e.data ≠ ['.', '.']) :
    clean (d ++ "/" ++ e) = d ++ "/" ++ e := by
  have hd0 : d.data ≠ [] := by
    intro hnil
    exact hne (data_inj d "" (by simpa using hnil))
  have hdata : (d ++ "/" ++ e).data = d.data ++ '/' :: e.data := by
    rw [data_append, data_append]
    simp
  apply data_inj
  show cleanList (d ++ "/" ++ e).data = (d ++ "/" ++ e).data
  rw [hdata]
  have hcd : cleanList d.data = d.data := congrArg String.data hclean
  simp only [cleanList] at hcd ⊢
  rw [isRooted_append _ _ hd0]
  rw [splitSlash_append_slash, splitSlash_no_slash e.data he1,
    List.foldl_append, List.foldl_cons, List.foldl_nil]
  rw [show elemStep (isRooted d.data)
        ((splitSlash d.data).foldl (elemStep (isRooted d.data)) []) e.data =
      e.data :: (splitSlash d.data).foldl (elemStep (isRooted d.data)) []
    from by
      rw [elemStep.eq_def, if_neg (by simp [he0, he2]), if_neg he3]]
  rw [List.reverse_cons]
  cases hrb : isRooted d.data with
  | true =>
    rw [hrb] at hcd
    simp only [if_true, reduceIte] at hcd ⊢
    cases hSrev : ((splitSlash d.data).foldl (elemStep true) []).reverse with
    | nil =>
      rw [hSrev] at hcd
      exact absurd (data_inj d "/" (by simp [← hcd, joinSlash])) hroot
    | cons p ps =>
      rw [hSrev] at hcd
      rw [joinSlash_append_singleton _ _ (by simp)]
      rw [← hcd]
      simp
  | false =>
    rw [hrb] at hcd
    simp only [Bool.false_eq_true, if_false, reduceIte] at hcd ⊢
    by_cases hJ :
        joinSlash (((splitSlash d.data).foldl (elemStep false) []).reverse) = []
    · rw [if_pos hJ] at hcd
      exact absurd (data_inj d "." (by simp [← hcd])) hdot
    · rw [if_neg hJ] at hcd
      cases hSrev : ((splitSlash d.data).foldl (elemStep false) []).reverse with
      | nil => rw [hSrev] at hJ; exact (hJ rfl).elim
      | cons p ps =>
        rw [hSrev] at hcd
        rw [joinSlash_append_singleton _ _ (by simp)]
        rw [if_neg (by simp)]
        rw [← hcd]

/-! ### Listing after saving -/

/-- Dropping the `.json` suffix from a name of that very form. -/
theorem dropJsonSuffix_append (t : List Char) :
    dropJsonSuffix (t ++ jsonExt) = some t := by
  rw [dropJsonSuffix,
    if_pos (List.isSuffixOf_iff_suffix.mpr (List.suffix_append t jsonExt))]
  rw [show (t ++ jsonExt).length - 5 = t.length from by simp [jsonExt]]
  rw [List.take_left]

/-- Only names ending in `.json` drop to `some`, and the result is the
name without that suffix. -/
theorem dropJsonSuffix_some (b t : List Char) (h : dropJsonSuffix b = some t) :
    b = t ++ jsonExt := by
  rw [dropJsonSuffix] at h
  split at h
  · rename_i hs
    obtain ⟨pre, hpre⟩ := List.isSuffixOf_iff_suffix.mp hs
    simp only [Option.some.injEq] at h
    subst h
    rw [← hpre]
    rw [show (pre ++ jsonExt).length - 5 = pre.length from by simp [jsonExt]]
    rw [List.take_left]
  · exact absurd h (by simp)

/-- Stripping a literal prefix. -/
theorem stripPrefixL_append (p l : List Char) :
    stripPrefixL p (p ++ l) = some l := by
  induction p with
  | nil => rfl
  | cons c p ih => simp [stripPrefixL, ih]

/-- A successful strip exposes the prefix. -/
theorem stripPrefixL_some (p : List Char) :
    ∀ l r : List Char, stripPrefixL p l = some r → l = p ++ r := by
  induction p with
  | nil =>
    intro l r h
    simpa [stripPrefixL] using h
  | cons c p ih =>
    intro l r h
    cases l with
    | nil => exact absurd h (by simp [stripPrefixL])
    | cons x xs =>
      rw [stripPrefixL] at h
      split at h
      · rename_i hcx
        rw [List.cons_append, ← ih xs r h, hcx]
      · exact absurd h (by simp)

/-- A path of the form `dir/base` with slash-free `base` is listed in
`dir` with that base name. -/
theorem baseNameIn_concat (dir : String) (base : List Char)
    (hb : '/' ∉ base) :
    baseNameIn dir ⟨dir.data ++ '/' :: base⟩ = some ⟨base⟩ := by
  rw [baseNameIn]
  rw [show (String.mk (dir.data ++ '/' :: base)).data =
      (dir.data ++ ['/']) ++ base from by simp]
  rw [stripPrefixL_append]
  simp [hb]

/-- A listed base name decomposes the path. -/
theorem baseNameIn_some (dir path b : String)
    (h : baseNameIn dir path = some b) :
    path.data = (dir.data ++ ['/']) ++ b.data ∧ '/' ∉ b.data := by
  rw [baseNameIn] at h
  split at h
  · rename_i base heq
    split at h
    · exact absurd h (by simp)
    · rename_i hmem
      simp only [Option.some.injEq] at h
      subst h
      exact ⟨stripPrefixL_some _ _ _ heq, hmem⟩
  · exact absurd h (by simp)

/-- Counting an output value of a `filterMap` as a `countP`. -/
theorem count_filterMap_eq_countP {α : Type} (g : α → Option String)
    (t : String) (l : List α) :
    (l.filterMap g).count t = l.countP (fun e => g e == some t) := by
  induction l with
  | nil => rfl
  | cons a l ih =>
    rw [List.filterMap_cons, List.countP_cons]
    cases hg : g a with
    | none => simp [hg, ih]
    | some s =>
      rw [List.count_cons, ih]
      simp [hg]

/-- A key absent from the store is never counted. -/
theorem countP_eq_zero_of_not_mem_keys (st : Store) (k : String)
    (h : k ∉ st.map Prod.fst) :
    st.countP (fun e => e.1 == k) = 0 := by
  induction st with
  | nil => rfl
  | cons e st ih =>
    simp only [List.map_cons, List.mem_cons, not_or] at h
    rw [List.countP_cons, ih h.2]
    have hne : (e.1 == k) = false :=
      beq_eq_false_iff_ne.mpr fun hh => h.1 hh.symm
    simp [hne]

/-- After a write, the written key appears exactly once among a
duplicate-free store's entries. -/
theorem countP_key_setFile (st : Store) (k v : String)
    (hnd : (st.map Prod.fst).Nodup) :
    (setFile st k v).countP (fun e => e.1 == k) = 1 := by
  induction st with
  | nil => simp [setFile]
  | cons e st ih =>
    simp only [List.map_cons, List.nodup_cons] at hnd
    rw [setFile]
    by_cases h : e.1 = k
    · rw [if_pos h, List.countP_cons]
      rw [countP_eq_zero_of_not_mem_keys st k (by rw [← h]; exact hnd.1)]
      simp
    · rw [if_neg h, List.countP_cons, ih hnd.2]
      have hne : (e.1 == k) = false := beq_eq_false_iff_ne.mpr h
      simp [hne]

/-- Keys after a write are the written key or old keys. -/
theorem setFile_keys_subset (st : Store) (k v x : String)
    (hx : x ∈ (setFile st k v).map Prod.fst) :
    x = k ∨ x ∈ st.map Prod.fst := by
  induction st with
  | nil => simpa [setFile] using hx
  | cons e st ih =>
    rw [setFile] at hx
    by_cases h : e.1 = k
    · rw [if_pos h] at hx
      simp only [List.map_cons, List.mem_cons] at hx ⊢
      rcases hx with hx | hx
      · exact Or.inl hx
      · exact Or.inr (Or.inr hx)
    · rw [if_neg h] at hx
      simp only [List.map_cons, List.mem_cons] at hx ⊢
      rcases hx with hx | hx
      · exact Or.inr (Or.inl hx)
      · rcases ih hx with h1 | h1
        · exact Or.inl h1
        · exact Or.inr (Or.inr h1)

/-- Writing preserves freedom from duplicate keys. -/
theorem setFile_keys_nodup (st : Store) (k v : String)
    (hnd : (st.map Prod.fst).Nodup) :
    ((setFile st k v).map Prod.fst).Nodup := by
  induction st with
  | nil => simp [setFile]
  | cons e st ih =>
    simp only [List.map_cons, List.nodup_cons] at hnd
    rw [setFile]
    by_cases h : e.1 = k
    · rw [if_pos h]
      simp only [List.map_cons, List.nodup_cons]
      exact ⟨by rw [← h]; exact hnd.1, hnd.2⟩
    · rw [if_neg h]
      simp only [List.map_cons, List.nodup_cons]
      refine ⟨fun hmem => ?_, ih hnd.2⟩
      rcases setFile_keys_subset st k v e.1 hmem with h1 | h1
      · exact h h1
      · exact hnd.1 h1

/-- `Join` of two elements with a nonempty head. -/
theorem joinPath_pair (d f : String) (hd : d ≠ "") :
    joinPath [d, f] = clean (d ++ "/" ++ f) := by
  rw [joinPath]
  rw [show List.dropWhile (fun e => e == "") [d, f] = [d, f] from by
    rw [List.dropWhile_cons]
    simp [hd]]
  rfl

/-- A history directory that `Clean` already fixes and that is not
degenerate (`""`, `"."`, `"/"`) — true of every real `os.UserConfigDir`
result. -/
abbrev goodDir (d : String) : Prop :=
  clean d = d ∧ d ≠ "" ∧ d ≠ "." ∧ d ≠ "/"

/-- For separator-free thread names the saved path is literally
`historyDir/threadName.json`. -/
theorem savePath_eq (configDir threadName : String)
    (hdir : goodDir (histDir configDir)) (hname : '/' ∉ threadName.data) :
    savePath configDir threadName =
      histDir configDir ++ "/" ++ (threadName ++ ".json") := by
  obtain ⟨hc, h0, h1, h2⟩ := hdir
  unfold savePath
  rw [joinPath_pair _ _ h0]
  apply clean_append_elem _ _ hc h0 h1 h2
  · rw [data_append]
    simp
  · rw [data_append]
    simp only [List.mem_append, not_or]
    exact ⟨hname, by decide⟩
  · intro heq
    have hlen := congrArg List.length heq
    rw [data_append] at hlen
    simp at hlen
  · intro heq
    have hlen := congrArg List.length heq
    rw [data_append] at hlen
    simp at hlen

/-- The character data of the saved path, for separator-free names. -/
theorem savePath_data (configDir threadName : String)
    (hdir : goodDir (histDir configDir)) (hname : '/' ∉ threadName.data) :
    (savePath configDir threadName).data =
      (histDir configDir).data ++ '/' :: (threadName.data ++ jsonExt) := by
  rw [savePath_eq configDir threadName hdir hname]
  rw [data_append, data_append, data_append]
  rw [show (".json" : String).data = jsonExt from rfl]
  simp

/-- After saving a conversation under a separator-free thread name, the
listing of the history directory maps exactly one store entry to that
thread name. -/
theorem listConversations_save_count (st : Store)
    (configDir threadName : String) (msgs : List Message)
    (hnd : (st.map Prod.fst).Nodup)
    (hdir : goodDir (histDir configDir)) (hname : '/' ∉ threadName.data) :
    (listConversations (saveConversation st configDir msgs threadName)
        configDir).count threadName = 1 := by
  rw [listConversations, List.filterMap_filterMap, count_filterMap_eq_countP]
  have hK : ∀ e : String × String,
      (((baseNameIn (histDir configDir) e.1).bind fun nm =>
          (dropJsonSuffix nm.data).map fun l => (⟨l⟩ : String)) ==
        some threadName) =
      (e.1 == savePath configDir threadName) := by
    intro e
    by_cases hk : e.1 = savePath configDir threadName
    · rw [hk]
      have hb : baseNameIn (histDir configDir)
          (savePath configDir threadName) =
          some ⟨threadName.data ++ jsonExt⟩ := by
        rw [show savePath configDir threadName =
            ⟨(histDir configDir).data ++ '/' ::
              (threadName.data ++ jsonExt)⟩ from
          data_inj _ _ (by rw [savePath_data configDir threadName hdir hname])]
        exact baseNameIn_concat _ _ (by
          simp only [List.mem_append, not_or]
          exact ⟨hname, by decide⟩)
      rw [hb]
      simp only [Option.some_bind]
      rw [dropJsonSuffix_append]
      simp [mk_data]
    · have hne2 : (e.1 == savePath configDir threadName) = false :=
        beq_eq_false_iff_ne.mpr hk
      rw [hne2]
      rw [beq_eq_false_iff_ne]
      intro hG
      apply hk
      obtain ⟨nm, hnm, hmap⟩ := Option.bind_eq_some.mp hG
      obtain ⟨u, hu, humk⟩ := Option.map_eq_some'.mp hmap
      have hud : u = threadName.data := by
        have hdd := congrArg String.data humk
        simpa using hdd
      have hnmd : nm.data = threadName.data ++ jsonExt := by
        rw [← hud]
        exact dropJsonSuffix_some _ _ hu
      have hpath := baseNameIn_some _ _ _ hnm
      apply data_inj
      rw [hpath.1, hnmd, savePath_data configDir threadName hdir hname]
      simp
  rw [List.countP_congr fun e hmem => by rw [hK e]]
  exact countP_key_setFile st _ _ hnd

/-- C7 (as frozen) is false: for the thread name `../evil` the file is
written outside the history directory, so the listing after a save does
not contain the thread name at all (count 0, not 1). -/
theorem c7_counterexample :
    (listConversations (saveConversation [] "/home/user/.config"
        [⟨"user", "hi"⟩] "../evil") "/home/user/.config").count "../evil" = 0 ∧
    ((listConversations (saveConversation [] "/home/user/.config"
        [⟨"user", "hi"⟩] "../evil") "/home/user/.config").count "../evil" ≠ 1) := by
  constructor <;> decide

/-- C7 (amended): for every thread name free of path separators (so the
file lands inside the history directory), after one save — or any
number of repeated saves — of that thread, `list()` contains the thread
name exactly once; saving also preserves the store's key uniqueness,
so the property is stable under iteration. -/
theorem c7_list_contains_once (st : Store) (configDir threadName : String)
    (msgs msgs2 : List Message)
    (hnd : (st.map Prod.fst).Nodup) (hdir : goodDir (histDir configDir))
    (hname : '/' ∉ threadName.data) :
    (listConversations (saveConversation st configDir msgs threadName)
        configDir).count threadName = 1 ∧
    ((saveConversation st configDir msgs threadName).map Prod.fst).Nodup ∧
    (listConversations (saveConversation (saveConversation st configDir msgs2
        threadName) configDir msgs threadName) configDir).count threadName = 1 :=
  ⟨listConversations_save_count st configDir threadName msgs hnd hdir hname,
   setFile_keys_nodup st _ _ hnd,
   listConversations_save_count _ configDir threadName msgs
     (setFile_keys_nodup st _ _ hnd) hdir hname⟩

/-- C7 witness: saving `demo` into an empty store (once and twice)
lists it exactly once. -/
theorem c7_list_contains_once_witness :
    (listConversations (saveConversation [] "/home/user/.config"
        [⟨"user", "hi"⟩] "demo") "/home/user/.config").count "demo" = 1 ∧
    ((saveConversation [] "/home/user/.config" [⟨"user", "hi"⟩] "demo").map
      Prod.fst).Nodup ∧
    (listConversations (saveConversation (saveConversation []
        "/home/user/.config" [⟨"user", "bye"⟩] "demo") "/home/user/.config"
        [⟨"user", "hi"⟩] "demo") "/home/user/.config").count "demo" = 1 :=
  c7_list_contains_once [] "/home/user/.config" "demo" [⟨"user", "hi"⟩]
    [⟨"user", "bye"⟩] (by decide) (by decide) (by decide)

/-- C8: every saved conversation is stored, at the path
`Join(<config-dir>/q/history, <thread>.json)` (literally
`<config-dir>/q/history/<thread>.json` for separator-free names), as
the JSON array of role/content objects in stable field order with
two-space indentation produced by the encoder; the concrete conjunct
exhibits the exact bytes for one conversation. -/
theorem c8_persisted_format (st : Store) (configDir threadName : String)
    (msgs : List Message) :
    getFile (saveConversation st configDir msgs threadName)
        (savePath configDir threadName) = some (encodeMessages msgs) ∧
    savePath configDir threadName =
      joinPath [histDir configDir, threadName ++ ".json"] ∧
    (goodDir (histDir configDir) → '/' ∉ threadName.data →
      savePath configDir threadName =
        histDir configDir ++ "/" ++ (threadName ++ ".json")) ∧
    encodeMessages [⟨"user", "hi"⟩] =
      "[\n  \x7b\n    \"role\": \"user\",\n    \"content\": \"hi\"\n  \x7d\n]\n" :=
  ⟨getFile_setFile st _ _, rfl,
   fun hdir hname => savePath_eq configDir threadName hdir hname,
   by decide⟩

/-- C8 witness: the conditional path conjunct at a concrete
configuration directory and thread name. -/
theorem c8_persisted_format_witness :
    getFile (saveConversation [] "/home/user/.config" [⟨"user", "hi"⟩]
        "demo") (savePath "/home/user/.config" "demo") =
      some (encodeMessages [⟨"user", "hi"⟩]) ∧
    savePath "/home/user/.config" "demo" =
      histDir "/home/user/.config" ++ "/" ++ ("demo" ++ ".json") :=
  ⟨(c8_persisted_format [] "/home/user/.config" "demo" [⟨"user", "hi"⟩]).1,
   (c8_persisted_format [] "/home/user/.config" "demo"
      [⟨"user", "hi"⟩]).2.2.1 (by decide) (by decide)⟩

end QChat
